import Mathlib

/-!
Verification of the AccessKit C-binding surface (`accesskit.h`) and the
tree consistency engine it declares.

The C header only declares the functions; the behavior of the tree engine,
node builder, identifiers and geometry helpers is implemented behind the
binding.  Those operations are therefore modelled here from the
specification (each such definition carries a doc comment starting with
"Modelled from the spec:"), while struct layouts and function signatures
follow `src/bindings/c/src/accesskit.h` directly.

Machine doubles are modelled as exact rationals (plus an explicit
infinity/NaN carrier where the claim is about NaN detection); machine
integers are modelled as `Nat` with explicit bounds.
-/

namespace AccessKit

/-! ### Association-list utilities

The Rust core stores node properties in a sparse map and the tree in a
hash map.  Both are modelled as association lists with unique keys kept
by a replace-or-append update. -/

/-- Look up the value stored under a key in an association list. -/
def lookupAssoc {α β : Type} [DecidableEq α] (l : List (α × β)) (k : α) : Option β :=
  (l.find? (fun p => p.1 = k)).map (fun p => p.2)

/-- Delete every binding of a key. -/
def removeAssoc {α β : Type} [DecidableEq α] (l : List (α × β)) (k : α) :
    List (α × β) :=
  l.filter (fun p => p.1 ≠ k)

/-- Store a value under a key, dropping any previous binding of it. -/
def setAssoc {α β : Type} [DecidableEq α] (l : List (α × β)) (k : α) (v : β) :
    List (α × β) :=
  (k, v) :: removeAssoc l k

/-! ### Node and NodeBuilder

Struct shapes follow `accesskit.h`: a builder is created from a role,
accumulates boolean flags (value-less setters, plain `bool` getters,
e.g. `accesskit_node_builder_set_hidden`) and optional typed properties
(value-taking setters, `accesskit_opt_*` getters, e.g.
`accesskit_node_builder_set_numeric_value`), and is frozen by
`accesskit_node_builder_build`.  Following the schema-driven abstraction
of the spec, the generated per-field accessor surface is modelled as a
single tagged property map plus representative typed wrappers. -/

/-- Node roles; a representative subset of the closed `accesskit_role`
enumeration in `accesskit.h`. -/
inductive accesskit_role
  | window
  | button
  | staticText
  | unknown
deriving DecidableEq, Repr

/-- Boolean flags with value-less setters and plain `bool` getters in
`accesskit.h` (representative subset: `hidden`, `disabled` (read through
`accesskit_node_is_disabled`), `hovered`). -/
inductive NodeFlag
  | hidden
  | disabled
  | hovered
deriving DecidableEq, Repr

/-- Tags of the optional typed properties (representative subset of the
generated field surface, keyed as the spec's field-tag schema). -/
inductive FieldTag
  | children
  | name
  | numericValue
  | minNumericValue
  | maxNumericValue
  | expanded
  | selected
  | liveStatus
deriving DecidableEq, Repr

/-- Values an optional typed property can hold.  Doubles are modelled as
exact rationals. -/
inductive PropValue
  | boolVal (b : Bool)
  | numVal (q : ℚ)
  | strVal (s : String)
  | idListVal (l : List Nat)
  | natVal (n : Nat)
deriving DecidableEq, Repr

/-- Modelled from the spec: the mutable node builder
(`accesskit_node_builder`), which accumulates a role, a flag set and a
sparse property map. -/
structure accesskit_node_builder where
  role : accesskit_role
  flags : List NodeFlag
  props : List (FieldTag × PropValue)
deriving DecidableEq, Repr

/-- Modelled from the spec: the immutable node (`accesskit_node`) frozen
from a builder. -/
structure accesskit_node where
  role : accesskit_role
  flags : List NodeFlag
  props : List (FieldTag × PropValue)
deriving DecidableEq, Repr

/-- Modelled from the spec: `accesskit_node_builder_new`. -/
def accesskit_node_builder_new (role : accesskit_role) : accesskit_node_builder :=
  ⟨role, [], []⟩

/-- Modelled from the spec: `accesskit_node_builder_build` freezes the
builder into a node.  The node class set argument is an interning handle
that is invisible to behavior, so it is omitted. -/
def accesskit_node_builder_build (b : accesskit_node_builder) : accesskit_node :=
  ⟨b.role, b.flags, b.props⟩

/-- Generic flag setter (the shape of `accesskit_node_builder_set_hidden`
and friends: no value argument). -/
def builder_set_flag (b : accesskit_node_builder) (f : NodeFlag) :
    accesskit_node_builder :=
  { b with flags := if f ∈ b.flags then b.flags else b.flags ++ [f] }

/-- Generic flag clearer (`accesskit_node_builder_clear_hidden` etc.). -/
def builder_clear_flag (b : accesskit_node_builder) (f : NodeFlag) :
    accesskit_node_builder :=
  { b with flags := b.flags.filter (fun g => g ≠ f) }

/-- Generic flag getter on a frozen node (`accesskit_node_is_hidden`
etc.): a plain boolean, false when the flag was never set. -/
def node_get_flag (n : accesskit_node) (f : NodeFlag) : Bool :=
  decide (f ∈ n.flags)

/-- Generic property setter (the shape of every value-taking
`accesskit_node_builder_set_*`). -/
def builder_set_prop (b : accesskit_node_builder) (t : FieldTag) (v : PropValue) :
    accesskit_node_builder :=
  { b with props := setAssoc b.props t v }

/-- Generic property clearer (`accesskit_node_builder_clear_*`). -/
def builder_clear_prop (b : accesskit_node_builder) (t : FieldTag) :
    accesskit_node_builder :=
  { b with props := removeAssoc b.props t }

/-- Generic property getter on a frozen node: `none` models an
`accesskit_opt_*` value with `has_value` false. -/
def node_get_prop (n : accesskit_node) (t : FieldTag) : Option PropValue :=
  lookupAssoc n.props t

/-- Modelled from the spec: `accesskit_node_builder_set_hidden`. -/
def accesskit_node_builder_set_hidden (b : accesskit_node_builder) :
    accesskit_node_builder :=
  builder_set_flag b .hidden

/-- Modelled from the spec: `accesskit_node_builder_clear_hidden`. -/
def accesskit_node_builder_clear_hidden (b : accesskit_node_builder) :
    accesskit_node_builder :=
  builder_clear_flag b .hidden

/-- Modelled from the spec: `accesskit_node_is_hidden`, which returns a
plain `bool` in `accesskit.h`. -/
def accesskit_node_is_hidden (n : accesskit_node) : Bool :=
  node_get_flag n .hidden

/-- Modelled from the spec: `accesskit_node_builder_set_expanded`, which
takes a boolean value. -/
def accesskit_node_builder_set_expanded (b : accesskit_node_builder) (v : Bool) :
    accesskit_node_builder :=
  builder_set_prop b .expanded (.boolVal v)

/-- Modelled from the spec: `accesskit_node_builder_clear_expanded`. -/
def accesskit_node_builder_clear_expanded (b : accesskit_node_builder) :
    accesskit_node_builder :=
  builder_clear_prop b .expanded

/-- Modelled from the spec: `accesskit_node_is_expanded`, which returns an
`accesskit_opt_bool` in `accesskit.h` (`none` models `has_value` false). -/
def accesskit_node_is_expanded (n : accesskit_node) : Option Bool :=
  match node_get_prop n .expanded with
  | some (.boolVal v) => some v
  | _ => none

/-- Modelled from the spec: `accesskit_node_builder_set_numeric_value`. -/
def accesskit_node_builder_set_numeric_value (b : accesskit_node_builder) (v : ℚ) :
    accesskit_node_builder :=
  builder_set_prop b .numericValue (.numVal v)

/-- Modelled from the spec: `accesskit_node_builder_clear_numeric_value`. -/
def accesskit_node_builder_clear_numeric_value (b : accesskit_node_builder) :
    accesskit_node_builder :=
  builder_clear_prop b .numericValue

/-- Modelled from the spec: `accesskit_node_numeric_value`, returning an
`accesskit_opt_double` (`none` models `has_value` false). -/
def accesskit_node_numeric_value (n : accesskit_node) : Option ℚ :=
  match node_get_prop n .numericValue with
  | some (.numVal q) => some q
  | _ => none

/-- Modelled from the spec: `accesskit_node_builder_set_name`. -/
def accesskit_node_builder_set_name (b : accesskit_node_builder) (s : String) :
    accesskit_node_builder :=
  builder_set_prop b .name (.strVal s)

/-- Modelled from the spec: `accesskit_node_name` (a nullable string in
`accesskit.h`). -/
def accesskit_node_name (n : accesskit_node) : Option String :=
  match node_get_prop n .name with
  | some (.strVal s) => some s
  | _ => none

/-- Modelled from the spec: `accesskit_node_builder_set_children`. -/
def accesskit_node_builder_set_children (b : accesskit_node_builder)
    (l : List Nat) : accesskit_node_builder :=
  builder_set_prop b .children (.idListVal l)

/-- Modelled from the spec: `accesskit_node_builder_push_child`. -/
def accesskit_node_builder_push_child (b : accesskit_node_builder) (c : Nat) :
    accesskit_node_builder :=
  match lookupAssoc b.props .children with
  | some (.idListVal l) => builder_set_prop b .children (.idListVal (l ++ [c]))
  | _ => builder_set_prop b .children (.idListVal [c])

/-- Modelled from the spec: `accesskit_node_children`; a node with no
children property reports an empty child list. -/
def accesskit_node_children (n : accesskit_node) : List Nat :=
  match node_get_prop n .children with
  | some (.idListVal l) => l
  | _ => []

/-! ### Node identifiers

`accesskit_node_id` is a 16-byte struct; the header warns it must never
be all zeroes, and `accesskit_node_id_new` converts a `uint64_t` into an
optional identifier.  The identifier is modelled by its 128-bit numeric
value, with the byte view recovered arithmetically. -/

/-- Byte `k` (little-endian) of the 128-bit identifier value `v`,
modelling the `uint8_t _0[16]` field of `accesskit_node_id`. -/
def idByte (v k : Nat) : Nat :=
  v / 256 ^ k % 256

/-- Whether all 16 bytes of the identifier value are zero (the reserved,
invalid bit pattern). -/
def accesskit_node_id_all_zero (v : Nat) : Bool :=
  (List.range 16).all (fun k => idByte v k == 0)

/-- Modelled from the spec: `accesskit_node_id_new` turns a `uint64_t`
into an optional node identifier; the all-zero value is reserved, so the
input 0 produces no identifier (`has_value` false). -/
def accesskit_node_id_new (id : Nat) : Option Nat :=
  if id = 0 then none else some id

/-! ### Rectangles

`accesskit_rect` per the header: `x0, y0, x1, y1` doubles, modelled as
exact rationals. -/

/-- The `accesskit_rect` struct from `accesskit.h`. -/
structure accesskit_rect where
  x0 : ℚ
  y0 : ℚ
  x1 : ℚ
  y1 : ℚ
deriving DecidableEq, Repr

/-- Modelled from the spec: `accesskit_rect_width`. -/
def accesskit_rect_width (r : accesskit_rect) : ℚ :=
  r.x1 - r.x0

/-- Modelled from the spec: `accesskit_rect_height`. -/
def accesskit_rect_height (r : accesskit_rect) : ℚ :=
  r.y1 - r.y0

/-- Modelled from the spec: `accesskit_rect_is_empty`; a rect is empty
when its width or height is not positive. -/
def accesskit_rect_is_empty (r : accesskit_rect) : Bool :=
  decide (accesskit_rect_width r ≤ 0) || decide (accesskit_rect_height r ≤ 0)

/-- Modelled from the spec: `accesskit_rect_union`, the smallest
rectangle enclosing both, per axis. -/
def accesskit_rect_union (r other : accesskit_rect) : accesskit_rect :=
  ⟨min r.x0 other.x0, min r.y0 other.y0, max r.x1 other.x1, max r.y1 other.y1⟩

/-- Modelled from the spec: `accesskit_rect_intersect`, the overlapping
region per axis (possibly degenerate). -/
def accesskit_rect_intersect (r other : accesskit_rect) : accesskit_rect :=
  ⟨max r.x0 other.x0, max r.y0 other.y0, min r.x1 other.x1, min r.y1 other.y1⟩

/-! ### Doubles with special values, and affine transforms

For the NaN/finiteness claims a double is modelled as either an exact
rational, an infinity, or NaN, with IEEE-style propagation in the
arithmetic used by the affine operations. -/

/-- A machine double: an exact finite rational, an infinity, or NaN. -/
inductive accesskit_double
  | num (q : ℚ)
  | posInf
  | negInf
  | nan
deriving DecidableEq, Repr

/-- NaN test on a modelled double. -/
def fpIsNan : accesskit_double → Bool
  | .nan => true
  | _ => false

/-- Finiteness test on a modelled double. -/
def fpIsFinite : accesskit_double → Bool
  | .num _ => true
  | _ => false

/-- Negation on modelled doubles. -/
def fpNeg : accesskit_double → accesskit_double
  | .num q => .num (-q)
  | .posInf => .negInf
  | .negInf => .posInf
  | .nan => .nan

/-- Addition on modelled doubles with IEEE-style special cases. -/
def fpAdd : accesskit_double → accesskit_double → accesskit_double
  | .num a, .num b => .num (a + b)
  | .num _, .posInf => .posInf
  | .num _, .negInf => .negInf
  | .posInf, .num _ => .posInf
  | .posInf, .posInf => .posInf
  | .posInf, .negInf => .nan
  | .negInf, .num _ => .negInf
  | .negInf, .negInf => .negInf
  | .negInf, .posInf => .nan
  | _, _ => .nan

/-- Subtraction on modelled doubles. -/
def fpSub (a b : accesskit_double) : accesskit_double :=
  fpAdd a (fpNeg b)

/-- Multiplication on modelled doubles with IEEE-style special cases. -/
def fpMul : accesskit_double → accesskit_double → accesskit_double
  | .num a, .num b => .num (a * b)
  | .num a, .posInf => if 0 < a then .posInf else if a < 0 then .negInf else .nan
  | .num a, .negInf => if 0 < a then .negInf else if a < 0 then .posInf else .nan
  | .posInf, .num b => if 0 < b then .posInf else if b < 0 then .negInf else .nan
  | .negInf, .num b => if 0 < b then .negInf else if b < 0 then .posInf else .nan
  | .posInf, .posInf => .posInf
  | .posInf, .negInf => .negInf
  | .negInf, .posInf => .negInf
  | .negInf, .negInf => .posInf
  | _, _ => .nan

/-- Reciprocal on modelled doubles (`recip` in the inverse computation). -/
def fpRecip : accesskit_double → accesskit_double
  | .num q => if q = 0 then .posInf else .num q⁻¹
  | .posInf => .num 0
  | .negInf => .num 0
  | .nan => .nan

/-- The `accesskit_vec2` struct from `accesskit.h`. -/
structure accesskit_vec2 where
  x : accesskit_double
  y : accesskit_double
deriving DecidableEq, Repr

/-- The `accesskit_affine` struct from `accesskit.h`: six coefficients
`(a, b, c, d, e, f)` of the map `(x, y) ↦ (a x + c y + e, b x + d y + f)`. -/
structure accesskit_affine where
  c0 : accesskit_double
  c1 : accesskit_double
  c2 : accesskit_double
  c3 : accesskit_double
  c4 : accesskit_double
  c5 : accesskit_double
deriving DecidableEq, Repr

/-- Modelled from the spec: `accesskit_affine_identity`. -/
def accesskit_affine_identity : accesskit_affine :=
  ⟨.num 1, .num 0, .num 0, .num 1, .num 0, .num 0⟩

/-- Modelled from the spec: `accesskit_affine_translate`. -/
def accesskit_affine_translate (p : accesskit_vec2) : accesskit_affine :=
  ⟨.num 1, .num 0, .num 0, .num 1, p.x, p.y⟩

/-- Modelled from the spec: `accesskit_affine_determinant`. -/
def accesskit_affine_determinant (a : accesskit_affine) : accesskit_double :=
  fpSub (fpMul a.c0 a.c3) (fpMul a.c1 a.c2)

/-- Modelled from the spec: `accesskit_affine_inverse`, via the adjugate
scaled by the reciprocal determinant. -/
def accesskit_affine_inverse (a : accesskit_affine) : accesskit_affine :=
  let inv := fpRecip (accesskit_affine_determinant a)
  ⟨fpMul inv a.c3, fpNeg (fpMul inv a.c1), fpNeg (fpMul inv a.c2),
    fpMul inv a.c0,
    fpMul inv (fpSub (fpMul a.c2 a.c5) (fpMul a.c3 a.c4)),
    fpMul inv (fpSub (fpMul a.c1 a.c4) (fpMul a.c0 a.c5))⟩

/-- Modelled from the spec: composition of affine transforms by matrix
multiplication (the `*` operator on `Affine`). -/
def accesskit_affine_mul (a b : accesskit_affine) : accesskit_affine :=
  ⟨fpAdd (fpMul a.c0 b.c0) (fpMul a.c2 b.c1),
    fpAdd (fpMul a.c1 b.c0) (fpMul a.c3 b.c1),
    fpAdd (fpMul a.c0 b.c2) (fpMul a.c2 b.c3),
    fpAdd (fpMul a.c1 b.c2) (fpMul a.c3 b.c3),
    fpAdd (fpAdd (fpMul a.c0 b.c4) (fpMul a.c2 b.c5)) a.c4,
    fpAdd (fpAdd (fpMul a.c1 b.c4) (fpMul a.c3 b.c5)) a.c5⟩

/-- Modelled from the spec: `accesskit_affine_is_nan`, true when any
coefficient is NaN. -/
def accesskit_affine_is_nan (a : accesskit_affine) : Bool :=
  fpIsNan a.c0 || fpIsNan a.c1 || fpIsNan a.c2 || fpIsNan a.c3 ||
    fpIsNan a.c4 || fpIsNan a.c5

/-- Modelled from the spec: `accesskit_affine_is_finite`, true when every
coefficient is finite. -/
def accesskit_affine_is_finite (a : accesskit_affine) : Bool :=
  fpIsFinite a.c0 && fpIsFinite a.c1 && fpIsFinite a.c2 && fpIsFinite a.c3 &&
    fpIsFinite a.c4 && fpIsFinite a.c5

/-! ### The tree consistency engine

Modelled from the spec, section 4.1: the authoritative `Tree`, the
`TreeUpdate` batch, transactional validation (reachability walk, dangling
reference / structure / focus checks), pruning of unreachable nodes, and
the change-notification diff. -/

/-- A node mapping: identifier to node, unique keys. -/
abbrev NodeMap := List (Nat × accesskit_node)

/-- Look up a node by identifier. -/
def lookupNode (m : NodeMap) (id : Nat) : Option accesskit_node :=
  lookupAssoc m id

/-- The identifiers present in a mapping. -/
def nodeKeys (m : NodeMap) : List Nat :=
  m.map (fun p => p.1)

/-- The child list of the node stored under an identifier (empty when the
identifier is unmapped). -/
def childrenIn (m : NodeMap) (id : Nat) : List Nat :=
  match lookupNode m id with
  | some n => accesskit_node_children n
  | none => []

/-- The `accesskit_tree` struct from `accesskit.h`: the wire declaration
of a new tree (root and optional root scroller). -/
structure TreeData where
  root : Nat
  root_scroller : Option Nat
deriving DecidableEq, Repr

/-- `accesskit_tree_new` from `accesskit.h`: builds the tree declaration
from a root identifier, with no root scroller. -/
def accesskit_tree_new (root : Nat) : TreeData :=
  ⟨root, none⟩

/-- Modelled from the spec: a tree update batch — ordered
(identifier, node) pairs, an optional new-tree declaration and an
optional focus declaration. -/
structure TreeUpdate where
  nodes : List (Nat × accesskit_node)
  tree : Option TreeData
  focus : Option Nat
deriving DecidableEq, Repr

/-- Modelled from the spec: the authoritative tree state. -/
structure Tree where
  nodes : NodeMap
  root : Nat
  focus : Option Nat
  root_scroller : Option Nat
deriving DecidableEq, Repr

/-- Modelled from the spec: the validation error taxonomy. -/
inductive ValidationError
  | missingRoot
  | danglingReference (id : Nat)
  | cycle (id : Nat)
  | multiParent (id : Nat)
  | danglingFocus (id : Nat)
deriving DecidableEq, Repr

/-- Modelled from the spec: one change-notification event. -/
inductive ChangeEvent
  | nodeRemoved (id : Nat)
  | nodeAdded (id : Nat)
  | nodeUpdated (id : Nat) (oldNode newNode : accesskit_node)
  | focusChanged (oldFocus newFocus : Option Nat)
  | treeChanged
deriving DecidableEq, Repr

/-- Overlay the update pairs onto the current mapping, in order, so that
the last write to an identifier wins. -/
def overlay (m : NodeMap) (ps : List (Nat × accesskit_node)) : NodeMap :=
  ps.foldl (fun acc p => setAssoc acc p.1 p.2) m

/-- The last value written for an identifier within one batch. -/
def lastWrite (ps : List (Nat × accesskit_node)) (id : Nat) :
    Option accesskit_node :=
  (ps.reverse.find? (fun p => p.1 = id)).map (fun p => p.2)

/-- All identifiers that can ever become reachable: the root, the mapped
keys, and every referenced child. -/
def reachUniverse (m : NodeMap) (r : Nat) : Finset Nat :=
  insert r ((nodeKeys m).toFinset
    ∪ (m.flatMap (fun p => accesskit_node_children p.2)).toFinset)

/-- One expansion step of the reachability walk: keep the frontier and
add every child of a mapped frontier node. -/
def reachStep (m : NodeMap) (s : Finset Nat) : Finset Nat :=
  s ∪ s.biUnion (fun p => (childrenIn m p).toFinset)

/-- The set of identifiers reachable from the root (children of mapped
nodes included even when they are dangling), computed by iterating the
expansion step to its fixed point. -/
def reachSet (m : NodeMap) (r : Nat) : Finset Nat :=
  (reachStep m)^[(reachUniverse m r).card + 1] {r}

/-- The prospective mapping restricted to reachable identifiers; garbage
not referenced from the root is pruned. -/
def prunedMap (m : NodeMap) (r : Nat) : NodeMap :=
  m.filter (fun p => decide (p.1 ∈ reachSet m r))

/-- Every child occurrence across the mapping, with multiplicity. -/
def occurrenceList (m : NodeMap) : List Nat :=
  m.flatMap (fun p => accesskit_node_children p.2)

/-- Modelled from the spec: the dangling-reference check.  Returns a
reachable identifier with no node in the mapping (the root itself, or a
child reference of a reachable node), or `none` when the reachable set is
fully mapped. -/
def findDangling (m : NodeMap) (r : Nat) : Option Nat :=
  if lookupNode m r = none then some r
  else (occurrenceList (prunedMap m r)).find?
    (fun c => decide (lookupNode m c = none))

/-- Modelled from the spec: the structural check of the walk.  Among the
reachable nodes, a child occurring twice is a multi-parent (or cycle)
violation, and the root occurring as anyone's child closes a cycle;
returns the offending identifier. -/
def findStructureViolation (m : NodeMap) (r : Nat) : Option Nat :=
  (occurrenceList (prunedMap m r)).find?
    (fun c => decide (1 < (occurrenceList (prunedMap m r)).count c)
      || decide (c = r))

/-- The node mapping of an optional current tree (empty before the first
update). -/
def curNodes (cur : Option Tree) : NodeMap :=
  match cur with
  | some t => t.nodes
  | none => []

/-- The focus of an optional current tree. -/
def curFocus (cur : Option Tree) : Option Nat :=
  match cur with
  | some t => t.focus
  | none => none

/-- The root scroller of an optional current tree. -/
def curScroller (cur : Option Tree) : Option Nat :=
  match cur with
  | some t => t.root_scroller
  | none => none

/-- The root in force after an update: freshly declared, else inherited;
`none` when a first update carries no declaration. -/
def rootDecl (cur : Option Tree) (u : TreeUpdate) : Option Nat :=
  match u.tree with
  | some td => some td.root
  | none => Option.map Tree.root cur

/-- The root scroller in force after an update. -/
def scrollerDecl (cur : Option Tree) (u : TreeUpdate) : Option Nat :=
  match u.tree with
  | some td => td.root_scroller
  | none => curScroller cur

/-- The focus in force after an update: freshly declared, else inherited. -/
def focusDecl (cur : Option Tree) (u : TreeUpdate) : Option Nat :=
  match u.focus with
  | some f => some f
  | none => curFocus cur

/-- The change-notification batch for a committed update, ordered
Removed, Added, Updated, FocusChanged, TreeChanged. -/
def diffEvents (cur : Option Tree) (u : TreeUpdate) (m0 pruned : NodeMap)
    (newRoot : Nat) : List ChangeEvent :=
  let removed := (nodeKeys m0).filterMap (fun id =>
    if lookupNode pruned id = none
    then some (ChangeEvent.nodeRemoved id) else none)
  let added := (nodeKeys pruned).filterMap (fun id =>
    if lookupNode m0 id = none
    then some (ChangeEvent.nodeAdded id) else none)
  let updated := (nodeKeys pruned).filterMap (fun id =>
    match lookupNode m0 id, lookupNode pruned id with
    | some oldN, some newN =>
      if oldN ≠ newN then some (ChangeEvent.nodeUpdated id oldN newN)
      else none
    | _, _ => none)
  let focusEv :=
    if focusDecl cur u ≠ curFocus cur
    then [ChangeEvent.focusChanged (curFocus cur) (focusDecl cur u)] else []
  let treeEv :=
    if Option.map Tree.root cur ≠ some newRoot
        ∨ curScroller cur ≠ scrollerDecl cur u
    then [ChangeEvent.treeChanged] else []
  removed ++ added ++ updated ++ focusEv ++ treeEv

/-- Modelled from the spec: apply one update to an optional current tree
(`none` models the very first update).  All validation happens against
the prospective post-update graph; only on success is the new state
committed, together with the diff batch. -/
def Tree.applyImpl (cur : Option Tree) (u : TreeUpdate) :
    Except ValidationError (Tree × List ChangeEvent) :=
  match rootDecl cur u with
  | none => .error .missingRoot
  | some newRoot =>
    match findDangling (overlay (curNodes cur) u.nodes) newRoot with
    | some c => .error (.danglingReference c)
    | none =>
      match findStructureViolation (overlay (curNodes cur) u.nodes) newRoot with
      | some c => .error (if c = newRoot then .cycle c else .multiParent c)
      | none =>
        match u.focus with
        | some f =>
          if f ∈ nodeKeys (prunedMap (overlay (curNodes cur) u.nodes) newRoot)
          then .ok
            (⟨prunedMap (overlay (curNodes cur) u.nodes) newRoot, newRoot,
              some f, scrollerDecl cur u⟩,
              diffEvents cur u (curNodes cur)
                (prunedMap (overlay (curNodes cur) u.nodes) newRoot) newRoot)
          else .error (.danglingFocus f)
        | none =>
          .ok
            (⟨prunedMap (overlay (curNodes cur) u.nodes) newRoot, newRoot,
              curFocus cur, scrollerDecl cur u⟩,
              diffEvents cur u (curNodes cur)
                (prunedMap (overlay (curNodes cur) u.nodes) newRoot) newRoot)

/-- Modelled from the spec: `Tree::apply(update)`. -/
def Tree.apply (t : Tree) (u : TreeUpdate) :
    Except ValidationError (Tree × List ChangeEvent) :=
  Tree.applyImpl (some t) u

/-- Modelled from the spec: `Tree::apply` seen as a mutating call — the
returned tree is the caller's state after the call, unchanged on error. -/
def Tree.applyMut (t : Tree) (u : TreeUpdate) :
    Except ValidationError (List ChangeEvent) × Tree :=
  match Tree.apply t u with
  | .ok (t2, ev) => (.ok ev, t2)
  | .error e => (.error e, t)

/-- Modelled from the spec: `Tree::new(initial_update)`. -/
def Tree.new (u : TreeUpdate) : Except ValidationError Tree :=
  (Tree.applyImpl none u).map (fun p => p.1)

/-- The `accesskit_tree_update` struct from `accesskit.h`: parallel
`ids` and `nodes` arrays of length `nodes_length` (modelled as functions
from indices, so that memory beyond the declared length exists but is
arbitrary), plus the optional tree and focus declarations. -/
structure accesskit_tree_update where
  nodes_length : Nat
  ids : Nat → Nat
  nodes : Nat → accesskit_node
  tree : Option TreeData
  focus : Option Nat

/-- Reading the C update struct into an update batch: exactly the first
`nodes_length` entries of the parallel arrays are read. -/
def tree_update_to_update (c : accesskit_tree_update) : TreeUpdate :=
  ⟨(List.range c.nodes_length).map (fun i => (c.ids i, c.nodes i)),
    c.tree, c.focus⟩

/-- A path witness: `Steps m x l z` says that following child edges of
mapping `m` from `x` through the successive identifiers of `l` ends at
`z` (so `l = []` means `x = z`). -/
inductive Steps (m : NodeMap) : Nat → List Nat → Nat → Prop
  | refl (x : Nat) : Steps m x [] x
  | snoc {x y z : Nat} {l : List Nat} :
      Steps m x l y → z ∈ childrenIn m y → Steps m x (l ++ [z]) z

/-- The structural invariant of a committed tree: every mapped node is
reachable from the root by exactly one path, there are no cycles, and no
node has two parents. -/
def TreeWellFormed (t : Tree) : Prop :=
  (∀ x ∈ nodeKeys t.nodes, ∃! l : List Nat, Steps t.nodes t.root l x) ∧
  (∀ x l, Steps t.nodes x l x → l = []) ∧
  (∀ c p1 p2, c ∈ childrenIn t.nodes p1 → c ∈ childrenIn t.nodes p2 →
    p1 = p2)

/-! ### Concrete sample values for witnesses -/

/-- A childless window node. -/
def sampleLeafNode : accesskit_node :=
  accesskit_node_builder_build (accesskit_node_builder_new .window)

/-- A one-node tree: the root alone. -/
def sampleTree : Tree :=
  ⟨[(1, sampleLeafNode)], 1, none, none⟩

/-- The empty update: no pairs, no tree declaration, no focus. -/
def emptyUpdate : TreeUpdate :=
  ⟨[], none, none⟩

/-- An initial update declaring root 1 with one node. -/
def sampleInitialUpdate : TreeUpdate :=
  ⟨[(1, sampleLeafNode)], some (accesskit_tree_new 1), none⟩

/-- A focus-only C update struct with `nodes_length = 0`. -/
def sampleFocusUpdateC : accesskit_tree_update :=
  ⟨0, fun _ => 0, fun _ => sampleLeafNode, none, some 1⟩


/-! ### Association-list lemmas -/

theorem lookupAssoc_nil {α β : Type} [DecidableEq α] (k : α) :
    lookupAssoc ([] : List (α × β)) k = none := rfl

theorem removeAssoc_cons_eq {α β : Type} [DecidableEq α]
    (hd : α × β) (tl : List (α × β)) (k : α) (hhd : hd.1 = k) :
    removeAssoc (hd :: tl) k = removeAssoc tl k := by
  simp [removeAssoc, List.filter, hhd]

theorem removeAssoc_cons_ne {α β : Type} [DecidableEq α]
    (hd : α × β) (tl : List (α × β)) (k : α) (hhd : ¬ hd.1 = k) :
    removeAssoc (hd :: tl) k = hd :: removeAssoc tl k := by
  simp [removeAssoc, List.filter, hhd]

theorem lookupAssoc_cons_hit {α β : Type} [DecidableEq α]
    (hd : α × β) (tl : List (α × β)) (k : α) (hhd : hd.1 = k) :
    lookupAssoc (hd :: tl) k = some hd.2 := by
  simp [lookupAssoc, List.find?, hhd]

theorem lookupAssoc_cons_miss {α β : Type} [DecidableEq α]
    (hd : α × β) (tl : List (α × β)) (k : α) (hhd : ¬ hd.1 = k) :
    lookupAssoc (hd :: tl) k = lookupAssoc tl k := by
  simp [lookupAssoc, List.find?, hhd]

theorem lookupAssoc_removeAssoc_self {α β : Type} [DecidableEq α]
    (l : List (α × β)) (k : α) :
    lookupAssoc (removeAssoc l k) k = none := by
  induction l with
  | nil => rfl
  | cons hd tl ih =>
    by_cases hhd : hd.1 = k
    · rw [removeAssoc_cons_eq hd tl k hhd]; exact ih
    · rw [removeAssoc_cons_ne hd tl k hhd, lookupAssoc_cons_miss _ _ _ hhd]
      exact ih

theorem lookupAssoc_removeAssoc_other {α β : Type} [DecidableEq α]
    (l : List (α × β)) (k k2 : α) (hne : k2 ≠ k) :
    lookupAssoc (removeAssoc l k) k2 = lookupAssoc l k2 := by
  induction l with
  | nil => rfl
  | cons hd tl ih =>
    by_cases hhd : hd.1 = k
    · have hhd2 : ¬ hd.1 = k2 := fun hcon => hne (hcon ▸ hhd)
      rw [removeAssoc_cons_eq hd tl k hhd, lookupAssoc_cons_miss _ _ _ hhd2]
      exact ih
    · rw [removeAssoc_cons_ne hd tl k hhd]
      by_cases hhd2 : hd.1 = k2
      · rw [lookupAssoc_cons_hit _ _ _ hhd2, lookupAssoc_cons_hit _ _ _ hhd2]
      · rw [lookupAssoc_cons_miss _ _ _ hhd2, lookupAssoc_cons_miss _ _ _ hhd2]
        exact ih

theorem lookupAssoc_setAssoc_self {α β : Type} [DecidableEq α]
    (l : List (α × β)) (k : α) (v : β) :
    lookupAssoc (setAssoc l k v) k = some v := by
  simp [setAssoc, lookupAssoc, List.find?]

theorem lookupAssoc_setAssoc_other {α β : Type} [DecidableEq α]
    (l : List (α × β)) (k k2 : α) (v : β) (hne : k2 ≠ k) :
    lookupAssoc (setAssoc l k v) k2 = lookupAssoc l k2 := by
  have h1 : ¬ (k, v).1 = k2 := fun hcon => hne hcon.symm
  rw [setAssoc]
  rw [show lookupAssoc ((k, v) :: removeAssoc l k) k2
        = lookupAssoc (removeAssoc l k) k2 by
    simp [lookupAssoc, List.find?, h1]]
  exact lookupAssoc_removeAssoc_other l k k2 hne


theorem node_get_prop_build_set (b : accesskit_node_builder) (t : FieldTag)
    (v : PropValue) :
    node_get_prop (accesskit_node_builder_build (builder_set_prop b t v)) t
      = some v := by
  simp only [node_get_prop, accesskit_node_builder_build, builder_set_prop]
  exact lookupAssoc_setAssoc_self b.props t v

theorem node_get_prop_build_clear (b : accesskit_node_builder) (t : FieldTag) :
    node_get_prop (accesskit_node_builder_build (builder_clear_prop b t)) t
      = none := by
  simp only [node_get_prop, accesskit_node_builder_build, builder_clear_prop]
  exact lookupAssoc_removeAssoc_self b.props t

theorem node_get_prop_build_new (r : accesskit_role) (t : FieldTag) :
    node_get_prop (accesskit_node_builder_build (accesskit_node_builder_new r)) t
      = none := rfl

theorem node_get_flag_build_set (b : accesskit_node_builder) (f : NodeFlag) :
    node_get_flag (accesskit_node_builder_build (builder_set_flag b f)) f
      = true := by
  simp only [node_get_flag, accesskit_node_builder_build, builder_set_flag]
  by_cases h : f ∈ b.flags
  · simp [h]
  · simp [h]

theorem node_get_flag_build_clear (b : accesskit_node_builder) (f : NodeFlag) :
    node_get_flag (accesskit_node_builder_build (builder_clear_flag b f))
      f = false := by
  simp [node_get_flag, accesskit_node_builder_build, builder_clear_flag,
    List.mem_filter]

/-! ### Reachability: soundness and the fixed point -/

theorem mem_reachStep {m : NodeMap} {s : Finset Nat} {x : Nat} :
    x ∈ reachStep m s ↔ x ∈ s ∨ ∃ p ∈ s, x ∈ childrenIn m p := by
  simp [reachStep, Finset.mem_union, Finset.mem_biUnion, List.mem_toFinset]

theorem subset_reachStep (m : NodeMap) (s : Finset Nat) : s ⊆ reachStep m s :=
  fun x hx => mem_reachStep.mpr (Or.inl hx)

theorem reachStep_mono (m : NodeMap) {s t : Finset Nat} (h : s ⊆ t) :
    reachStep m s ⊆ reachStep m t := by
  intro x hx
  rcases mem_reachStep.mp hx with hx | ⟨p, hp, hc⟩
  · exact mem_reachStep.mpr (Or.inl (h hx))
  · exact mem_reachStep.mpr (Or.inr ⟨p, h hp, hc⟩)

theorem iterate_reachStep_mono (m : NodeMap) (r : Nat) (k : Nat) :
    (reachStep m)^[k] {r} ⊆ (reachStep m)^[k + 1] {r} := by
  rw [Function.iterate_succ_apply']
  exact subset_reachStep m _

theorem iterate_reachStep_le (m : NodeMap) (r : Nat) {j k : Nat} (h : j ≤ k) :
    (reachStep m)^[j] {r} ⊆ (reachStep m)^[k] {r} := by
  induction k with
  | zero =>
    rw [Nat.le_zero.mp h]
  | succ k ih =>
    rcases Nat.lt_or_ge j (k + 1) with hlt | hge
    · exact (ih (Nat.lt_succ_iff.mp hlt)).trans (iterate_reachStep_mono m r k)
    · have heq : j = k + 1 := Nat.le_antisymm h hge
      subst heq
      exact Finset.Subset.refl _

theorem mem_reachSet_root (m : NodeMap) (r : Nat) : r ∈ reachSet m r := by
  have h0 : r ∈ (reachStep m)^[0] {r} := by
    rw [Function.iterate_zero_apply]
    exact Finset.mem_singleton_self r
  exact iterate_reachStep_le m r (Nat.zero_le _) h0

theorem lookupNode_eq_some_pair {m : NodeMap} {p : Nat} {n : accesskit_node}
    (hlk : lookupNode m p = some n) :
    ∃ pr, m.find? (fun q => q.1 = p) = some pr ∧ pr.2 = n ∧ pr ∈ m ∧
      pr.1 = p := by
  unfold lookupNode lookupAssoc at hlk
  cases hf : m.find? (fun q => q.1 = p) with
  | none => rw [hf] at hlk; simp at hlk
  | some pr =>
    rw [hf] at hlk
    simp only [Option.map_some', Option.some_inj] at hlk
    refine ⟨pr, rfl, hlk, List.mem_of_find?_eq_some hf, ?_⟩
    have := List.find?_some hf
    simpa using this

theorem childrenIn_subset_flatMap {m : NodeMap} {p c : Nat}
    (hc : c ∈ childrenIn m p) :
    c ∈ m.flatMap (fun pr => accesskit_node_children pr.2) := by
  cases hlk : lookupNode m p with
  | none => simp [childrenIn, hlk] at hc
  | some n =>
    simp only [childrenIn, hlk] at hc
    obtain ⟨pr, _, hpr2, hmem, _⟩ := lookupNode_eq_some_pair hlk
    exact List.mem_flatMap.mpr ⟨pr, hmem, by rw [hpr2]; exact hc⟩

theorem iterate_subset_universe (m : NodeMap) (r : Nat) (k : Nat) :
    (reachStep m)^[k] {r} ⊆ reachUniverse m r := by
  induction k with
  | zero =>
    intro x hx
    rw [Function.iterate_zero_apply, Finset.mem_singleton] at hx
    subst hx
    exact Finset.mem_insert_self _ _
  | succ k ih =>
    rw [Function.iterate_succ_apply']
    intro x hx
    rcases mem_reachStep.mp hx with hx | ⟨p, _, hc⟩
    · exact ih hx
    · have : x ∈ m.flatMap (fun pr => accesskit_node_children pr.2) :=
        childrenIn_subset_flatMap hc
      exact Finset.mem_insert_of_mem
        (Finset.mem_union_right _ (List.mem_toFinset.mpr this))

theorem iterate_card_grow (m : NodeMap) (r : Nat) (n : Nat)
    (h : ∀ k < n, (reachStep m)^[k] {r} ≠ (reachStep m)^[k + 1] {r}) :
    n + 1 ≤ ((reachStep m)^[n] {r}).card := by
  induction n with
  | zero => simp
  | succ n ih =>
    have h1 : n + 1 ≤ ((reachStep m)^[n] {r}).card :=
      ih (fun k hk => h k (Nat.lt_succ_of_lt hk))
    have h2 : (reachStep m)^[n] {r} ⊂ (reachStep m)^[n + 1] {r} :=
      Finset.ssubset_iff_subset_ne.mpr
        ⟨iterate_reachStep_mono m r n, h n (Nat.lt_succ_self n)⟩
    exact Nat.succ_le_of_lt
      (Nat.lt_of_le_of_lt h1 (Finset.card_lt_card h2))

theorem exists_reach_fixpoint (m : NodeMap) (r : Nat) :
    ∃ k ≤ (reachUniverse m r).card,
      (reachStep m)^[k] {r} = (reachStep m)^[k + 1] {r} := by
  by_contra hcon
  push_neg at hcon
  have hall : ∀ k < (reachUniverse m r).card + 1,
      (reachStep m)^[k] {r} ≠ (reachStep m)^[k + 1] {r} :=
    fun k hk => hcon k (Nat.lt_succ_iff.mp hk)
  have hgrow := iterate_card_grow m r ((reachUniverse m r).card + 1) hall
  have hbound : ((reachStep m)^[(reachUniverse m r).card + 1] {r}).card
      ≤ (reachUniverse m r).card :=
    Finset.card_le_card (iterate_subset_universe m r _)
  omega

theorem iterate_stab (m : NodeMap) (r : Nat) {k : Nat}
    (h : (reachStep m)^[k] {r} = (reachStep m)^[k + 1] {r}) :
    ∀ j, (reachStep m)^[k + j] {r} = (reachStep m)^[k] {r} := by
  intro j
  induction j with
  | zero => rfl
  | succ j ih =>
    have hstep : (reachStep m)^[k + (j + 1)] {r}
        = reachStep m ((reachStep m)^[k + j] {r}) := by
      rw [show k + (j + 1) = (k + j) + 1 by omega]
      exact Function.iterate_succ_apply' (reachStep m) (k + j) {r}
    have hsucc : (reachStep m)^[k + 1] {r}
        = reachStep m ((reachStep m)^[k] {r}) :=
      Function.iterate_succ_apply' (reachStep m) k {r}
    rw [hstep, ih, ← hsucc, ← h]

theorem reachStep_reachSet (m : NodeMap) (r : Nat) :
    reachStep m (reachSet m r) = reachSet m r := by
  obtain ⟨k, hk, hfix⟩ := exists_reach_fixpoint m r
  have h1 : reachSet m r = (reachStep m)^[k] {r} := by
    unfold reachSet
    have := iterate_stab m r hfix ((reachUniverse m r).card + 1 - k)
    rwa [show k + ((reachUniverse m r).card + 1 - k)
      = (reachUniverse m r).card + 1 by omega] at this
  have hsucc : (reachStep m)^[k + 1] {r}
      = reachStep m ((reachStep m)^[k] {r}) :=
    Function.iterate_succ_apply' (reachStep m) k {r}
  rw [h1, ← hsucc, ← hfix]

theorem reachSet_closed {m : NodeMap} {r p c : Nat}
    (hp : p ∈ reachSet m r) (hc : c ∈ childrenIn m p) :
    c ∈ reachSet m r := by
  have : c ∈ reachStep m (reachSet m r) :=
    mem_reachStep.mpr (Or.inr ⟨p, hp, hc⟩)
  rwa [reachStep_reachSet m r] at this

theorem iterate_subset_reachSet (m : NodeMap) (r : Nat) (k : Nat) :
    (reachStep m)^[k] {r} ⊆ reachSet m r := by
  rcases le_or_lt k ((reachUniverse m r).card + 1) with h | h
  · exact iterate_reachStep_le m r h
  · obtain ⟨k0, hk0, hfix⟩ := exists_reach_fixpoint m r
    have hset := iterate_stab m r hfix
    have h1 : (reachStep m)^[k] {r} = (reachStep m)^[k0] {r} := by
      have := hset (k - k0)
      rwa [show k0 + (k - k0) = k by omega] at this
    have h2 : reachSet m r = (reachStep m)^[k0] {r} := by
      unfold reachSet
      have := hset ((reachUniverse m r).card + 1 - k0)
      rwa [show k0 + ((reachUniverse m r).card + 1 - k0)
        = (reachUniverse m r).card + 1 by omega] at this
    rw [h1, h2]

theorem mem_reachSet_elim (m : NodeMap) (r : Nat)
    (motive : Nat → Prop) (hroot : motive r)
    (hstep : ∀ p c, motive p → p ∈ reachSet m r → c ∈ childrenIn m p →
      motive c) :
    ∀ x ∈ reachSet m r, motive x := by
  suffices h : ∀ k, ∀ x ∈ (reachStep m)^[k] {r}, motive x by
    intro x hx
    exact h ((reachUniverse m r).card + 1) x hx
  intro k
  induction k with
  | zero =>
    intro x hx
    simp only [Function.iterate_zero, id, Finset.mem_singleton] at hx
    exact hx ▸ hroot
  | succ k ih =>
    intro x hx
    rw [Function.iterate_succ_apply'] at hx
    rcases mem_reachStep.mp hx with hx | ⟨p, hp, hc⟩
    · exact ih x hx
    · exact hstep p x (ih p hp) (iterate_subset_reachSet m r k hp) hc

/-! ### The pruned mapping and the validation checks -/

theorem lookupAssoc_filter_key {α β : Type} [DecidableEq α]
    (P : α → Bool) (l : List (α × β)) (k : α) :
    lookupAssoc (l.filter (fun pr => P pr.1)) k
      = if P k then lookupAssoc l k else none := by
  induction l with
  | nil => cases hP : P k <;> simp [lookupAssoc, hP]
  | cons hd tl ih =>
    by_cases hk : hd.1 = k
    · subst hk
      cases hP : P hd.1 with
      | true =>
        rw [List.filter_cons_of_pos (by simpa using hP),
          lookupAssoc_cons_hit hd _ hd.1 rfl, lookupAssoc_cons_hit hd tl hd.1 rfl]
        simp
      | false =>
        rw [List.filter_cons_of_neg (by simp [hP]), ih, hP]
        simp
    · cases hP : P hd.1 with
      | true =>
        rw [List.filter_cons_of_pos (by simpa using hP),
          lookupAssoc_cons_miss hd _ k hk, ih, lookupAssoc_cons_miss hd tl k hk]
      | false =>
        rw [List.filter_cons_of_neg (by simp [hP]), ih,
          lookupAssoc_cons_miss hd tl k hk]

theorem lookupNode_prunedMap_of_mem {m : NodeMap} {r x : Nat}
    (hx : x ∈ reachSet m r) :
    lookupNode (prunedMap m r) x = lookupNode m x := by
  unfold prunedMap lookupNode
  rw [lookupAssoc_filter_key (fun a => decide (a ∈ reachSet m r)) m x]
  simp [hx]

theorem lookupNode_prunedMap_of_not_mem {m : NodeMap} {r x : Nat}
    (hx : x ∉ reachSet m r) :
    lookupNode (prunedMap m r) x = none := by
  unfold prunedMap lookupNode
  rw [lookupAssoc_filter_key (fun a => decide (a ∈ reachSet m r)) m x]
  simp [hx]

theorem childrenIn_prunedMap_of_mem {m : NodeMap} {r x : Nat}
    (hx : x ∈ reachSet m r) :
    childrenIn (prunedMap m r) x = childrenIn m x := by
  unfold childrenIn
  rw [lookupNode_prunedMap_of_mem hx]

theorem mem_nodeKeys_iff {m : NodeMap} {k : Nat} :
    k ∈ nodeKeys m ↔ ∃ p ∈ m, p.1 = k := by
  simp [nodeKeys, List.mem_map]

theorem lookupNode_eq_none_iff {m : NodeMap} {k : Nat} :
    lookupNode m k = none ↔ k ∉ nodeKeys m := by
  constructor
  · intro h hk
    obtain ⟨p, hp, hpk⟩ := mem_nodeKeys_iff.mp hk
    unfold lookupNode lookupAssoc at h
    rw [Option.map_eq_none'] at h
    exact absurd (by simpa using hpk) (List.find?_eq_none.mp h p hp)
  · intro hk
    unfold lookupNode lookupAssoc
    rw [Option.map_eq_none', List.find?_eq_none]
    intro p hp
    simp only [decide_eq_true_eq]
    intro hpk
    exact hk (mem_nodeKeys_iff.mpr ⟨p, hp, hpk⟩)

theorem edge_pair {m : NodeMap} {p c : Nat} (hc : c ∈ childrenIn m p) :
    ∃ pr ∈ m, pr.1 = p ∧ c ∈ accesskit_node_children pr.2 := by
  cases hlk : lookupNode m p with
  | none => simp [childrenIn, hlk] at hc
  | some n =>
    simp only [childrenIn, hlk] at hc
    obtain ⟨pr, _, hpr2, hmem, hpr1⟩ := lookupNode_eq_some_pair hlk
    exact ⟨pr, hmem, hpr1, by rw [hpr2]; exact hc⟩

theorem mem_occurrenceList_of_edge {m : NodeMap} {p c : Nat}
    (hc : c ∈ childrenIn m p) : c ∈ occurrenceList m := by
  obtain ⟨pr, hmem, _, hcc⟩ := edge_pair hc
  exact List.mem_flatMap.mpr ⟨pr, hmem, hcc⟩

theorem findDangling_none_root {m : NodeMap} {r : Nat}
    (h : findDangling m r = none) : lookupNode m r ≠ none := by
  intro hr
  unfold findDangling at h
  rw [if_pos hr] at h
  exact Option.noConfusion h

theorem findDangling_none_mapped {m : NodeMap} {r : Nat}
    (h : findDangling m r = none) :
    ∀ x ∈ reachSet m r, lookupNode m x ≠ none := by
  have hroot := findDangling_none_root h
  have hrest : ∀ c ∈ occurrenceList (prunedMap m r),
      ¬ lookupNode m c = none := by
    unfold findDangling at h
    rw [if_neg hroot] at h
    intro c hc
    have := List.find?_eq_none.mp h c hc
    simpa using this
  apply mem_reachSet_elim m r (fun x => lookupNode m x ≠ none) hroot
  intro p c hp hpre hc
  apply hrest
  obtain ⟨pr, hmem, hpr1, hcc⟩ := edge_pair hc
  refine List.mem_flatMap.mpr ⟨pr, ?_, hcc⟩
  exact List.mem_filter.mpr ⟨hmem, by simp [hpr1, hpre]⟩

theorem mem_nodeKeys_prunedMap_iff {m : NodeMap} {r : Nat}
    (h : findDangling m r = none) (x : Nat) :
    x ∈ nodeKeys (prunedMap m r) ↔ x ∈ reachSet m r := by
  constructor
  · intro hx
    obtain ⟨p, hp, hpk⟩ := mem_nodeKeys_iff.mp hx
    have := (List.mem_filter.mp hp).2
    simp only [decide_eq_true_eq] at this
    exact hpk ▸ this
  · intro hx
    cases hlk : lookupNode m x with
    | none => exact absurd hlk (findDangling_none_mapped h x hx)
    | some n =>
      obtain ⟨pr, _, _, hmem, hpr1⟩ := lookupNode_eq_some_pair hlk
      refine mem_nodeKeys_iff.mpr ⟨pr, ?_, hpr1⟩
      exact List.mem_filter.mpr ⟨hmem, by simp [hpr1, hx]⟩

theorem count_flatMap {α : Type} (f : α → List Nat) (l : List α) (c : Nat) :
    (l.flatMap f).count c = (l.map (fun x => (f x).count c)).sum := by
  induction l with
  | nil => rfl
  | cons hd tl ih => simp [List.flatMap_cons, List.count_append, ih]

theorem findStructureViolation_none_count {m : NodeMap} {r : Nat}
    (h : findStructureViolation m r = none) :
    (∀ c, (occurrenceList (prunedMap m r)).count c ≤ 1)
      ∧ r ∉ occurrenceList (prunedMap m r) := by
  unfold findStructureViolation at h
  have hall := List.find?_eq_none.mp h
  constructor
  · intro c
    by_cases hc : c ∈ occurrenceList (prunedMap m r)
    · have := hall c hc
      simp only [Bool.or_eq_true, decide_eq_true_eq, not_or] at this
      omega
    · rw [List.count_eq_zero.mpr hc]
      omega
  · intro hr
    have := hall r hr
    simp at this

theorem count_ge_two_of_two_parents {M : NodeMap} {c p1 p2 : Nat}
    (h1 : c ∈ childrenIn M p1) (h2 : c ∈ childrenIn M p2) (hne : p1 ≠ p2) :
    2 ≤ (occurrenceList M).count c := by
  obtain ⟨pr1, hm1, hk1, hc1⟩ := edge_pair h1
  obtain ⟨pr2, hm2, hk2, hc2⟩ := edge_pair h2
  have hprne : pr2 ≠ pr1 := fun he => hne (by rw [← hk1, ← hk2, he])
  rw [occurrenceList, count_flatMap]
  obtain ⟨s, t, rfl⟩ := List.append_of_mem hm1
  rw [List.map_append, List.sum_append, List.map_cons, List.sum_cons]
  have hone : 1 ≤ (accesskit_node_children pr1.2).count c :=
    List.count_pos_iff.mpr hc1
  have htwo1 : 1 ≤ (accesskit_node_children pr2.2).count c :=
    List.count_pos_iff.mpr hc2
  rcases List.mem_append.mp hm2 with h2s | h2ct
  · have h2sum : (accesskit_node_children pr2.2).count c
        ≤ (s.map (fun pr => (accesskit_node_children pr.2).count c)).sum :=
      List.single_le_sum (fun x _ => Nat.zero_le x) _
        (List.mem_map_of_mem _ h2s)
    omega
  · rcases List.mem_cons.mp h2ct with heq | h2t
    · exact absurd heq hprne
    · have h2sum : (accesskit_node_children pr2.2).count c
          ≤ (t.map (fun pr => (accesskit_node_children pr.2).count c)).sum :=
        List.single_le_sum (fun x _ => Nat.zero_le x) _
          (List.mem_map_of_mem _ h2t)
      omega

theorem single_parent_of_checks {m : NodeMap} {r : Nat}
    (h : findStructureViolation m r = none) {c p1 p2 : Nat}
    (h1 : c ∈ childrenIn (prunedMap m r) p1)
    (h2 : c ∈ childrenIn (prunedMap m r) p2) : p1 = p2 := by
  by_contra hne
  have := count_ge_two_of_two_parents h1 h2 hne
  have hle := (findStructureViolation_none_count h).1 c
  omega

theorem root_no_parent_of_checks {m : NodeMap} {r : Nat}
    (h : findStructureViolation m r = none) :
    ∀ p, r ∉ childrenIn (prunedMap m r) p := by
  intro p hr
  exact (findStructureViolation_none_count h).2 (mem_occurrenceList_of_edge hr)

/-! ### Paths: existence, uniqueness, acyclicity -/

theorem steps_trans {M : NodeMap} {x y z : Nat} {l1 l2 : List Nat}
    (h1 : Steps M x l1 y) (h2 : Steps M y l2 z) :
    Steps M x (l1 ++ l2) z := by
  induction h2 with
  | refl => simpa using h1
  | snoc _ hc ih =>
    rw [← List.append_assoc]
    exact Steps.snoc ih hc

theorem steps_nil_aux {M : NodeMap} {x y : Nat} {l : List Nat}
    (h : Steps M x l y) (hl : l = []) : x = y := by
  induction h with
  | refl => rfl
  | snoc _ _ _ => simp at hl

theorem steps_nil_eq {M : NodeMap} {x y : Nat} (h : Steps M x [] y) : x = y :=
  steps_nil_aux h rfl

theorem steps_to_root_nil {M : NodeMap} {r : Nat}
    (hroot : ∀ p, r ∉ childrenIn M p) {l : List Nat}
    (h : Steps M r l r) : l = [] := by
  cases h with
  | refl => rfl
  | snoc _ hc => exact absurd hc (hroot _)

theorem steps_unique_aux (M : NodeMap) (r : Nat)
    (hpar : ∀ c p1 p2, c ∈ childrenIn M p1 → c ∈ childrenIn M p2 → p1 = p2)
    (hroot : ∀ p, r ∉ childrenIn M p) :
    ∀ n l1 l2 x, l1.length ≤ n → Steps M r l1 x → Steps M r l2 x →
      l1 = l2 := by
  intro n
  induction n with
  | zero =>
    intro l1 l2 x hlen h1 h2
    have hl1 : l1 = [] := List.length_eq_zero.mp (Nat.le_zero.mp hlen)
    subst hl1
    have hx := steps_nil_eq h1
    subst hx
    exact (steps_to_root_nil hroot h2).symm
  | succ n ih =>
    intro l1 l2 x hlen h1 h2
    cases h1 with
    | refl => exact (steps_to_root_nil hroot h2).symm
    | snoc h1a hc1 =>
      rename_i a la
      cases h2 with
      | refl => exact absurd hc1 (hroot _)
      | snoc h2b hc2 =>
        rename_i b lb
        have hab : a = b := hpar x a b hc1 hc2
        subst hab
        have hlen2 : la.length ≤ n := by
          simp only [List.length_append, List.length_cons,
            List.length_nil] at hlen
          omega
        rw [ih la lb a hlen2 h1a h2b]

theorem steps_unique {M : NodeMap} {r x : Nat} {l1 l2 : List Nat}
    (hpar : ∀ c p1 p2, c ∈ childrenIn M p1 → c ∈ childrenIn M p2 → p1 = p2)
    (hroot : ∀ p, r ∉ childrenIn M p)
    (h1 : Steps M r l1 x) (h2 : Steps M r l2 x) : l1 = l2 :=
  steps_unique_aux M r hpar hroot l1.length l1 l2 x (Nat.le_refl _) h1 h2

theorem steps_acyclic {M : NodeMap} {r : Nat}
    (hex : ∀ x ∈ nodeKeys M, ∃ l, Steps M r l x)
    (hclosed : ∀ p c, c ∈ childrenIn M p → c ∈ nodeKeys M)
    (hpar : ∀ c p1 p2, c ∈ childrenIn M p1 → c ∈ childrenIn M p2 → p1 = p2)
    (hroot : ∀ p, r ∉ childrenIn M p) :
    ∀ x l, Steps M x l x → l = [] := by
  intro x l h
  cases h with
  | refl => rfl
  | snoc ha hc =>
    exfalso
    have hxk : x ∈ nodeKeys M := hclosed _ _ hc
    obtain ⟨l0, h0⟩ := hex x hxk
    have htrans : Steps M r (l0 ++ _) x := steps_trans h0 (Steps.snoc ha hc)
    have huniq := steps_unique hpar hroot htrans h0
    have hlen := congrArg List.length huniq
    simp at hlen

theorem steps_pruned_exists {m : NodeMap} {r : Nat}
    (h : findDangling m r = none) :
    ∀ x ∈ reachSet m r, ∃ l, Steps (prunedMap m r) r l x := by
  apply mem_reachSet_elim m r (fun x => ∃ l, Steps (prunedMap m r) r l x)
    ⟨[], Steps.refl r⟩
  intro p c hp hpre hc
  obtain ⟨l, hl⟩ := hp
  refine ⟨l ++ [c], Steps.snoc hl ?_⟩
  rw [childrenIn_prunedMap_of_mem hpre]
  exact hc

theorem pruned_closed {m : NodeMap} {r : Nat}
    (h : findDangling m r = none) :
    ∀ p c, c ∈ childrenIn (prunedMap m r) p →
      c ∈ nodeKeys (prunedMap m r) := by
  intro p c hc
  have hpk : p ∈ nodeKeys (prunedMap m r) := by
    obtain ⟨pr, hpr, hpr1, _⟩ := edge_pair hc
    exact mem_nodeKeys_iff.mpr ⟨pr, hpr, hpr1⟩
  have hpre : p ∈ reachSet m r := (mem_nodeKeys_prunedMap_iff h p).mp hpk
  rw [childrenIn_prunedMap_of_mem hpre] at hc
  exact (mem_nodeKeys_prunedMap_iff h c).mpr (reachSet_closed hpre hc)

/-- The validation checks passing on `(m, r)` make any tree state whose
mapping is the pruned mapping and whose root is `r` well formed. -/
theorem checks_give_wellformed {m : NodeMap} {r : Nat}
    (hd : findDangling m r = none)
    (hs : findStructureViolation m r = none)
    (t : Tree) (hn : t.nodes = prunedMap m r) (hr : t.root = r) :
    TreeWellFormed t := by
  unfold TreeWellFormed
  rw [hn, hr]
  refine ⟨?_, ?_, ?_⟩
  · intro x hx
    obtain ⟨l, hl⟩ :=
      steps_pruned_exists hd x ((mem_nodeKeys_prunedMap_iff hd x).mp hx)
    exact ⟨l, hl, fun l2 hl2 =>
      steps_unique (fun c p1 p2 => single_parent_of_checks hs)
        (root_no_parent_of_checks hs) hl2 hl⟩
  · exact steps_acyclic
      (fun x hx => steps_pruned_exists hd x
        ((mem_nodeKeys_prunedMap_iff hd x).mp hx))
      (pruned_closed hd)
      (fun c p1 p2 => single_parent_of_checks hs)
      (root_no_parent_of_checks hs)
  · exact fun c p1 p2 => single_parent_of_checks hs

/-! ### Inverting a successful apply -/

theorem applyImpl_ok_inv {cur : Option Tree} {u : TreeUpdate} {t2 : Tree}
    {ev : List ChangeEvent}
    (h : Tree.applyImpl cur u = .ok (t2, ev)) :
    rootDecl cur u = some t2.root ∧
    findDangling (overlay (curNodes cur) u.nodes) t2.root = none ∧
    findStructureViolation (overlay (curNodes cur) u.nodes) t2.root = none ∧
    t2.nodes = prunedMap (overlay (curNodes cur) u.nodes) t2.root ∧
    t2.root_scroller = scrollerDecl cur u ∧
    t2.focus = focusDecl cur u ∧
    ev = diffEvents cur u (curNodes cur) t2.nodes t2.root := by
  unfold Tree.applyImpl at h
  split at h
  · exact absurd h (by simp)
  next newRoot heqRoot =>
    split at h
    · exact absurd h (by simp)
    next heqD =>
      split at h
      · exact absurd h (by simp)
      next heqS =>
        split at h
        next f heqF =>
          split at h
          next hfk =>
            injection h with h2
            have hT := congrArg Prod.fst h2
            have hE := congrArg Prod.snd h2
            simp only at hT hE
            subst hT
            subst hE
            exact ⟨heqRoot, heqD, heqS, rfl, rfl,
              by simp [focusDecl, heqF], rfl⟩
          next => exact absurd h (by simp)
        next heqF =>
          injection h with h2
          have hT := congrArg Prod.fst h2
          have hE := congrArg Prod.snd h2
          simp only at hT hE
          subst hT
          subst hE
          exact ⟨heqRoot, heqD, heqS, rfl, rfl,
            by simp [focusDecl, heqF], rfl⟩

/-! ### Overlay and last-write-wins -/

theorem find?_append {α : Type} (l1 l2 : List α) (p : α → Bool) :
    (l1 ++ l2).find? p
      = match l1.find? p with
        | some x => some x
        | none => l2.find? p := by
  induction l1 with
  | nil => simp
  | cons hd tl ih =>
    by_cases hp : p hd
    · simp [List.find?, hp]
    · simp only [List.cons_append, List.find?,
        Bool.not_eq_true] at *
      rw [hp]
      simpa using ih

theorem lastWrite_cons (p : Nat × accesskit_node)
    (ps : List (Nat × accesskit_node)) (id : Nat) :
    lastWrite (p :: ps) id
      = match lastWrite ps id with
        | some v => some v
        | none => if p.1 = id then some p.2 else none := by
  unfold lastWrite
  rw [List.reverse_cons, find?_append]
  cases hf : ps.reverse.find? (fun q => q.1 = id) with
  | some q => simp
  | none =>
    by_cases hp : p.1 = id
    · simp [List.find?, hp]
    · simp [List.find?, hp]

theorem lookupNode_overlay (ps : List (Nat × accesskit_node)) (m : NodeMap)
    (id : Nat) :
    lookupNode (overlay m ps) id
      = match lastWrite ps id with
        | some v => some v
        | none => lookupNode m id := by
  induction ps generalizing m with
  | nil => simp [overlay, lastWrite]
  | cons p ps ih =>
    have hstep : overlay m (p :: ps) = overlay (setAssoc m p.1 p.2) ps := rfl
    rw [hstep, ih, lastWrite_cons]
    cases hw : lastWrite ps id with
    | some v => simp
    | none =>
      by_cases hp : p.1 = id
      · simp only [hp, if_pos rfl]
        subst hp
        exact lookupAssoc_setAssoc_self m p.1 p.2
      · simp only [hp, if_neg hp]
        exact lookupAssoc_setAssoc_other m p.1 id p.2 (fun hcon => hp hcon.symm)

/-! ### Claim C1: atomic, transactional apply -/

/-- C1: for every tree state and update, `apply` either accepts the whole
batch — returning a change batch, with every surviving identifier that the
batch wrote carrying exactly its last written node, and every surviving
untouched identifier keeping its previous node — or fails with a
`ValidationError` and returns the prior state with every node, the root
and the focus unchanged. -/
theorem C1_apply_atomic (t : Tree) (u : TreeUpdate) :
    (∃ ev, (Tree.applyMut t u).1 = .ok ev ∧
      (∀ id n, lastWrite u.nodes id = some n →
        id ∈ nodeKeys (Tree.applyMut t u).2.nodes →
        lookupNode (Tree.applyMut t u).2.nodes id = some n) ∧
      (∀ id, lastWrite u.nodes id = none →
        id ∈ nodeKeys (Tree.applyMut t u).2.nodes →
        lookupNode (Tree.applyMut t u).2.nodes id = lookupNode t.nodes id)) ∨
    (∃ e, (Tree.applyMut t u).1 = .error e ∧
      (Tree.applyMut t u).2 = t ∧
      (∀ id, lookupNode (Tree.applyMut t u).2.nodes id
        = lookupNode t.nodes id) ∧
      (Tree.applyMut t u).2.root = t.root ∧
      (Tree.applyMut t u).2.focus = t.focus) := by
  cases happ : Tree.apply t u with
  | error e =>
    right
    have hmut2 : (Tree.applyMut t u).2 = t := by
      simp [Tree.applyMut, happ]
    refine ⟨e, ?_, hmut2, fun id => by rw [hmut2], by rw [hmut2],
      by rw [hmut2]⟩
    simp [Tree.applyMut, happ]
  | ok p =>
    left
    obtain ⟨t2, ev⟩ := p
    have hmut1 : (Tree.applyMut t u).1 = .ok ev := by
      simp [Tree.applyMut, happ]
    have hmut2 : (Tree.applyMut t u).2 = t2 := by
      simp [Tree.applyMut, happ]
    obtain ⟨_, hd, _, hn, _⟩ := applyImpl_ok_inv happ
    refine ⟨ev, hmut1, ?_, ?_⟩
    · intro id n hw hk
      rw [hmut2] at hk ⊢
      rw [hn] at hk ⊢
      have hre : id ∈ reachSet (overlay (curNodes (some t)) u.nodes) t2.root :=
        (mem_nodeKeys_prunedMap_iff hd id).mp hk
      rw [lookupNode_prunedMap_of_mem hre, lookupNode_overlay, hw]
    · intro id hw hk
      rw [hmut2] at hk ⊢
      rw [hn] at hk ⊢
      have hre : id ∈ reachSet (overlay (curNodes (some t)) u.nodes) t2.root :=
        (mem_nodeKeys_prunedMap_iff hd id).mp hk
      rw [lookupNode_prunedMap_of_mem hre, lookupNode_overlay, hw]
      rfl

/-! ### Claim C2: the committed mapping is a tree -/

/-- C2: after every successful `apply` (hence after each step of any
sequence of accepted updates), every node of the resulting mapping is
reachable from the root by exactly one path: no cycles, no node with two
parents, no unreachable node retained. -/
theorem C2_apply_wellformed (t : Tree) (u : TreeUpdate) (t2 : Tree)
    (ev : List ChangeEvent) (h : Tree.apply t u = .ok (t2, ev)) :
    TreeWellFormed t2 := by
  obtain ⟨_, hd, hs, hn, _⟩ := applyImpl_ok_inv h
  exact checks_give_wellformed hd hs t2 hn rfl

/-! ### Claim C3: tree construction -/

/-- C3: constructing a tree from an initial update with no root
declaration fails with `MissingRoot`; construction always returns either
a tree or a validation error, and a returned tree is validated (well
formed). -/
theorem C3_tree_new (u : TreeUpdate) :
    (u.tree = none → Tree.new u = .error .missingRoot) ∧
    ((∃ t, Tree.new u = .ok t) ∨ (∃ e, Tree.new u = .error e)) ∧
    (∀ t, Tree.new u = .ok t → TreeWellFormed t) := by
  refine ⟨?_, ?_, ?_⟩
  · intro hu
    simp [Tree.new, Tree.applyImpl, rootDecl, hu, Except.map]
  · cases h : Tree.new u with
    | ok t => exact Or.inl ⟨t, rfl⟩
    | error e => exact Or.inr ⟨e, rfl⟩
  · intro t ht
    cases happ : Tree.applyImpl none u with
    | error e => simp [Tree.new, happ, Except.map] at ht
    | ok p =>
      obtain ⟨t2, ev⟩ := p
      have ht2 : t2 = t := by simpa [Tree.new, happ, Except.map] using ht
      subst ht2
      obtain ⟨_, hd, hs, hn, _⟩ := applyImpl_ok_inv happ
      exact checks_give_wellformed hd hs t2 hn rfl

/-! ### Claim C4: the all-zero identifier is never produced -/

theorem idByte_zero_of_lt {mB v : Nat} (hv : v < 256 ^ mB)
    (hb : ∀ k < mB, idByte v k = 0) : v = 0 := by
  induction mB generalizing v with
  | zero => simpa using Nat.lt_one_iff.mp (by simpa using hv)
  | succ mB ih =>
    have h0 : v % 256 = 0 := by
      have := hb 0 (by omega)
      simpa [idByte] using this
    have hw : v / 256 < 256 ^ mB := by
      rw [Nat.div_lt_iff_lt_mul (by norm_num)]
      calc v < 256 ^ (mB + 1) := hv
        _ = 256 ^ mB * 256 := pow_succ 256 mB
    have hbw : ∀ k < mB, idByte (v / 256) k = 0 := by
      intro k hk
      have hkb := hb (k + 1) (by omega)
      unfold idByte at hkb ⊢
      rw [Nat.div_div_eq_div_mul]
      rw [show 256 * 256 ^ k = 256 ^ (k + 1) by rw [pow_succ, mul_comm]]
      exact hkb
    have hz := ih hw hbw
    have hdm := Nat.div_add_mod v 256
    omega

/-- C4: for every `uint64` input, the identifier produced by
`accesskit_node_id_new` (when present) is never the reserved all-zero
byte pattern, and the input 0 produces no identifier. -/
theorem C4_node_id_nonzero (id : Nat) (hid : id < 2 ^ 64) :
    (∀ v, accesskit_node_id_new id = some v →
      accesskit_node_id_all_zero v = false) ∧
    accesskit_node_id_new 0 = none := by
  refine ⟨?_, rfl⟩
  intro v hv
  unfold accesskit_node_id_new at hv
  by_cases h0 : id = 0
  · simp [h0] at hv
  · rw [if_neg h0] at hv
    injection hv with hv
    subst hv
    rw [Bool.eq_false_iff]
    intro htrue
    unfold accesskit_node_id_all_zero at htrue
    have hall : ∀ k < 16, idByte id k = 0 := by
      intro k hk
      have := List.all_eq_true.mp htrue k (List.mem_range.mpr hk)
      simpa using this
    have hlt : id < 256 ^ 16 := by
      have h2 : (256 : Nat) ^ 16 = 2 ^ 128 := by norm_num
      have h3 : (2 : Nat) ^ 64 < 2 ^ 128 := by norm_num
      omega
    exact h0 (idByte_zero_of_lt hlt hall)

/-- C4 witness: at input 1, an identifier is produced and it is not
all-zero, and input 0 yields none. -/
theorem C4_witness :
    accesskit_node_id_new 0 = none
      ∧ accesskit_node_id_all_zero 1 = false :=
  ⟨(C4_node_id_nonzero 1 (by norm_num)).2,
    (C4_node_id_nonzero 1 (by norm_num)).1 1 rfl⟩

/-! ### Claim C5: flag tri-states -/

/-- C5 counterexample: the `hidden` flag is read back through the plain
boolean `accesskit_node_is_hidden`, so no three nodes can exhibit three
pairwise distinct read-back states — the flag is not tri-state. -/
theorem C5_counterexample :
    ¬ ∃ n1 n2 n3 : accesskit_node,
      accesskit_node_is_hidden n1 ≠ accesskit_node_is_hidden n2 ∧
      accesskit_node_is_hidden n1 ≠ accesskit_node_is_hidden n3 ∧
      accesskit_node_is_hidden n2 ≠ accesskit_node_is_hidden n3 := by
  rintro ⟨n1, n2, n3, h12, h13, h23⟩
  cases hb1 : accesskit_node_is_hidden n1 <;>
    cases hb2 : accesskit_node_is_hidden n2 <;>
    cases hb3 : accesskit_node_is_hidden n3 <;>
    simp_all

/-- C5 amended: boolean properties read through `accesskit_opt_bool`
(such as `expanded`) are tri-state with unset distinct from false and
from true, while plain flags with value-less setters (such as `hidden`)
are two-state — set reads true, cleared or never-set reads false. -/
theorem C5_amended (r : accesskit_role) (b : accesskit_node_builder)
    (v : Bool) :
    accesskit_node_is_expanded
      (accesskit_node_builder_build (accesskit_node_builder_set_expanded b v))
      = some v ∧
    accesskit_node_is_expanded
      (accesskit_node_builder_build (accesskit_node_builder_clear_expanded b))
      = none ∧
    accesskit_node_is_expanded
      (accesskit_node_builder_build (accesskit_node_builder_new r)) = none ∧
    (some true ≠ (some false : Option Bool)) ∧
    (some v ≠ (none : Option Bool)) ∧
    accesskit_node_is_hidden
      (accesskit_node_builder_build (accesskit_node_builder_set_hidden b))
      = true ∧
    accesskit_node_is_hidden
      (accesskit_node_builder_build (accesskit_node_builder_clear_hidden b))
      = false ∧
    accesskit_node_is_hidden
      (accesskit_node_builder_build (accesskit_node_builder_new r))
      = false := by
  refine ⟨?_, ?_, rfl, by simp, by simp, ?_, ?_, rfl⟩
  · rw [accesskit_node_is_expanded, accesskit_node_builder_set_expanded,
      node_get_prop_build_set]
  · rw [accesskit_node_is_expanded, accesskit_node_builder_clear_expanded,
      node_get_prop_build_clear]
  · exact node_get_flag_build_set b .hidden
  · exact node_get_flag_build_clear b .hidden

/-! ### Claim C6: builder round-trip -/

/-- C6: setting any field on a builder and freezing returns exactly the
set value on read-back; a cleared or never-set field reads back absent
(`has_value` false), not a default value.  Stated for the generic tagged
field map and for the concrete `numeric_value`, `name` and `children`
accessors. -/
theorem C6_builder_roundtrip (r : accesskit_role)
    (b : accesskit_node_builder) (t : FieldTag) (v : PropValue) (q : ℚ)
    (s : String) (l : List Nat) :
    node_get_prop (accesskit_node_builder_build (builder_set_prop b t v)) t
      = some v ∧
    node_get_prop (accesskit_node_builder_build (builder_clear_prop b t)) t
      = none ∧
    node_get_prop (accesskit_node_builder_build (accesskit_node_builder_new r))
      t = none ∧
    accesskit_node_numeric_value (accesskit_node_builder_build
      (accesskit_node_builder_set_numeric_value b q)) = some q ∧
    accesskit_node_numeric_value (accesskit_node_builder_build
      (accesskit_node_builder_clear_numeric_value b)) = none ∧
    accesskit_node_numeric_value (accesskit_node_builder_build
      (accesskit_node_builder_new r)) = none ∧
    accesskit_node_name (accesskit_node_builder_build
      (accesskit_node_builder_set_name b s)) = some s ∧
    accesskit_node_name (accesskit_node_builder_build
      (accesskit_node_builder_new r)) = none ∧
    accesskit_node_children (accesskit_node_builder_build
      (accesskit_node_builder_set_children b l)) = l := by
  refine ⟨node_get_prop_build_set b t v, node_get_prop_build_clear b t,
    node_get_prop_build_new r t, ?_, ?_, rfl, ?_, rfl, ?_⟩
  · rw [accesskit_node_numeric_value, accesskit_node_builder_set_numeric_value,
      node_get_prop_build_set]
  · rw [accesskit_node_numeric_value, accesskit_node_builder_clear_numeric_value,
      node_get_prop_build_clear]
  · rw [accesskit_node_name, accesskit_node_builder_set_name,
      node_get_prop_build_set]
  · rw [accesskit_node_children, accesskit_node_builder_set_children,
      node_get_prop_build_set]

/-! ### Claim C7: rectangle emptiness -/

/-- C7: a rectangle is empty exactly when `x1 <= x0` or `y1 <= y0`. -/
theorem C7_rect_is_empty (r : accesskit_rect) :
    accesskit_rect_is_empty r = true ↔ (r.x1 ≤ r.x0 ∨ r.y1 ≤ r.y0) := by
  unfold accesskit_rect_is_empty accesskit_rect_width accesskit_rect_height
  simp [sub_nonpos]

/-! ### Claim C8: rectangle union and intersection -/

/-- C8: union and intersection are the per-axis interval merge, and are
commutative and idempotent. -/
theorem C8_rect_union_intersect (a b : accesskit_rect) :
    accesskit_rect_union a b
      = ⟨min a.x0 b.x0, min a.y0 b.y0, max a.x1 b.x1, max a.y1 b.y1⟩ ∧
    accesskit_rect_intersect a b
      = ⟨max a.x0 b.x0, max a.y0 b.y0, min a.x1 b.x1, min a.y1 b.y1⟩ ∧
    accesskit_rect_union a b = accesskit_rect_union b a ∧
    accesskit_rect_intersect a b = accesskit_rect_intersect b a ∧
    accesskit_rect_union a a = a ∧
    accesskit_rect_intersect a a = a := by
  refine ⟨rfl, rfl, ?_, ?_, ?_, ?_⟩ <;>
    simp [accesskit_rect_union, accesskit_rect_intersect,
      min_comm, max_comm]

/-! ### Claim C9: affine inverse of a translation, NaN detection -/

theorem fpIsNan_iff (d : accesskit_double) :
    fpIsNan d = true ↔ d = .nan := by
  cases d <;> simp [fpIsNan]

theorem fpIsFinite_iff (d : accesskit_double) :
    fpIsFinite d = true ↔ ∃ q, d = .num q := by
  cases d <;> simp [fpIsFinite]

/-- C9: composing a translation with its computed inverse yields the
identity transform (exactly, in the rational model of doubles), and
`is_nan` / `is_finite` detect exactly the matrices with a NaN
coefficient / with all coefficients finite. -/
theorem C9_affine_translate_inverse (a b : ℚ) (A : accesskit_affine) :
    accesskit_affine_mul
      (accesskit_affine_inverse (accesskit_affine_translate ⟨.num a, .num b⟩))
      (accesskit_affine_translate ⟨.num a, .num b⟩)
      = accesskit_affine_identity ∧
    accesskit_affine_mul (accesskit_affine_translate ⟨.num a, .num b⟩)
      (accesskit_affine_inverse (accesskit_affine_translate ⟨.num a, .num b⟩))
      = accesskit_affine_identity ∧
    (accesskit_affine_is_nan A = true ↔
      A.c0 = .nan ∨ A.c1 = .nan ∨ A.c2 = .nan ∨
      A.c3 = .nan ∨ A.c4 = .nan ∨ A.c5 = .nan) ∧
    (accesskit_affine_is_finite A = true ↔
      (∃ q, A.c0 = .num q) ∧ (∃ q, A.c1 = .num q) ∧ (∃ q, A.c2 = .num q) ∧
      (∃ q, A.c3 = .num q) ∧ (∃ q, A.c4 = .num q) ∧ (∃ q, A.c5 = .num q)) := by
  refine ⟨?_, ?_, ?_, ?_⟩
  · simp only [accesskit_affine_translate, accesskit_affine_inverse,
      accesskit_affine_determinant, accesskit_affine_mul,
      accesskit_affine_identity, fpMul, fpSub, fpAdd, fpNeg, fpRecip]
    norm_num
  · simp only [accesskit_affine_translate, accesskit_affine_inverse,
      accesskit_affine_determinant, accesskit_affine_mul,
      accesskit_affine_identity, fpMul, fpSub, fpAdd, fpNeg, fpRecip]
    norm_num
  · simp only [accesskit_affine_is_nan, Bool.or_eq_true, fpIsNan_iff]
    tauto
  · simp only [accesskit_affine_is_finite, Bool.and_eq_true, fpIsFinite_iff]
    tauto

/-! ### Claim C10: focus-only updates -/

theorem prunedMap_eq_self {m : NodeMap} {r : Nat}
    (hk : ∀ k ∈ nodeKeys m, k ∈ reachSet m r) : prunedMap m r = m := by
  unfold prunedMap
  apply List.filter_eq_self.mpr
  intro p hp
  simp only [decide_eq_true_eq]
  exact hk p.1 (mem_nodeKeys_iff.mpr ⟨p, hp, rfl⟩)

theorem diffEvents_self (cur : Option Tree) (u : TreeUpdate)
    (m : NodeMap) (newRoot : Nat)
    (hscr : curScroller cur = scrollerDecl cur u)
    (hrt : Option.map Tree.root cur = some newRoot) :
    diffEvents cur u m m newRoot
      = (if focusDecl cur u ≠ curFocus cur
        then [ChangeEvent.focusChanged (curFocus cur) (focusDecl cur u)]
        else []) := by
  have hremoved : (nodeKeys m).filterMap (fun id =>
      if lookupNode m id = none
      then some (ChangeEvent.nodeRemoved id) else none) = [] := by
    rw [List.filterMap_eq_nil]
    intro id hid
    rw [if_neg (fun hn => (lookupNode_eq_none_iff.mp hn) hid)]
  have hadded : (nodeKeys m).filterMap (fun id =>
      if lookupNode m id = none
      then some (ChangeEvent.nodeAdded id) else none) = [] := by
    rw [List.filterMap_eq_nil]
    intro id hid
    rw [if_neg (fun hn => (lookupNode_eq_none_iff.mp hn) hid)]
  have hupdated : (nodeKeys m).filterMap (fun id =>
      match lookupNode m id, lookupNode m id with
      | some oldN, some newN =>
        if oldN ≠ newN then some (ChangeEvent.nodeUpdated id oldN newN)
        else none
      | _, _ => none) = [] := by
    rw [List.filterMap_eq_nil]
    intro id hid
    cases hl : lookupNode m id with
    | none => rfl
    | some n => simp [hl]
  have htreeEv : (if Option.map Tree.root cur ≠ some newRoot
      ∨ curScroller cur ≠ scrollerDecl cur u
      then [ChangeEvent.treeChanged] else []) = [] := by
    rw [if_neg]
    simp [hscr, hrt]
  simp only [diffEvents]
  rw [hremoved, hadded, hupdated, htreeEv]
  simp

/-- C10: an update with `nodes_length = 0` never reads the `ids` or
`nodes` pointers (the resulting batch is the same whatever those arrays
hold), and applying it to a well-formed tree succeeds, leaving every
node, the root and the root scroller unchanged — only the focus can
change, and every emitted event is a focus change. -/
theorem C10_focus_only (c : accesskit_tree_update) (t : Tree)
    (hlen : c.nodes_length = 0) (htree : c.tree = none)
    (hd : findDangling t.nodes t.root = none)
    (hs : findStructureViolation t.nodes t.root = none)
    (hk : ∀ k ∈ nodeKeys t.nodes, k ∈ reachSet t.nodes t.root)
    (hf : c.focus = none ∨ ∃ f, c.focus = some f ∧ f ∈ nodeKeys t.nodes) :
    (∀ (ids2 : Nat → Nat) (nodes2 : Nat → accesskit_node),
      tree_update_to_update c
        = tree_update_to_update ⟨0, ids2, nodes2, c.tree, c.focus⟩) ∧
    (∃ ev, Tree.apply t (tree_update_to_update c)
        = .ok (⟨t.nodes, t.root,
            focusDecl (some t) (tree_update_to_update c),
            t.root_scroller⟩, ev) ∧
      ∀ e ∈ ev, ∃ o n2, e = ChangeEvent.focusChanged o n2) := by
  constructor
  · intro ids2 nodes2
    simp [tree_update_to_update, hlen]
  · have hun : (tree_update_to_update c).nodes = [] := by
      simp [tree_update_to_update, hlen]
    have hut : (tree_update_to_update c).tree = none := by
      simp [tree_update_to_update, htree]
    have huf : (tree_update_to_update c).focus = c.focus := rfl
    have hcur : curNodes (some t) = t.nodes := rfl
    have hov : overlay (curNodes (some t)) (tree_update_to_update c).nodes
        = t.nodes := by rw [hun]; rfl
    have hroot : rootDecl (some t) (tree_update_to_update c)
        = some t.root := by simp [rootDecl, hut]
    have hpr : prunedMap t.nodes t.root = t.nodes := prunedMap_eq_self hk
    have hscr : curScroller (some t)
        = scrollerDecl (some t) (tree_update_to_update c) := by
      simp [scrollerDecl, hut]
    have hscr2 : scrollerDecl (some t) (tree_update_to_update c)
        = t.root_scroller := by
      simp [scrollerDecl, hut, curScroller]
    have hdiff := diffEvents_self (some t) (tree_update_to_update c)
      t.nodes t.root hscr rfl
    refine ⟨if focusDecl (some t) (tree_update_to_update c)
        ≠ curFocus (some t)
      then [ChangeEvent.focusChanged (curFocus (some t))
        (focusDecl (some t) (tree_update_to_update c))]
      else [], ?_, ?_⟩
    · unfold Tree.apply Tree.applyImpl
      have hovnil : ∀ mm : NodeMap, overlay mm [] = mm := fun _ => rfl
      rcases hf with hcf | ⟨f, hcf, hfk⟩
      · have hcf2 : (tree_update_to_update c).focus = none := by
          rw [huf, hcf]
        have hfd : focusDecl (some t) (tree_update_to_update c)
            = curFocus (some t) := by
          simp [focusDecl, hcf2]
        simp only [hroot, hun, hovnil, hcur, hd, hs, hcf2, hpr, hdiff,
          hfd, hscr2]
      · have hcf2 : (tree_update_to_update c).focus = some f := by
          rw [huf, hcf]
        have hfd : focusDecl (some t) (tree_update_to_update c)
            = some f := by
          simp [focusDecl, hcf2]
        simp only [hroot, hun, hovnil, hcur, hd, hs, hcf2, hpr, hfk,
          ite_true, hdiff, hfd, hscr2]
    · intro e he
      split at he
      · rcases List.mem_singleton.mp he with rfl
        exact ⟨_, _, rfl⟩
      · simp at he

/-- C2 witness: a concrete accepted update leaves a well-formed tree. -/
theorem C2_witness : TreeWellFormed sampleTree :=
  C2_apply_wellformed sampleTree emptyUpdate sampleTree [] (by rfl)

/-- C3 witness: the rootless empty update is rejected with `MissingRoot`,
and a concrete successful construction returns a well-formed tree. -/
theorem C3_witness :
    Tree.new emptyUpdate = .error .missingRoot ∧ TreeWellFormed sampleTree :=
  ⟨(C3_tree_new emptyUpdate).1 rfl,
    (C3_tree_new sampleInitialUpdate).2.2 sampleTree (by rfl)⟩

/-- C10 witness: a concrete focus-only update ignores the array contents
and only moves the focus. -/
theorem C10_witness :
    (tree_update_to_update sampleFocusUpdateC
      = tree_update_to_update
          ⟨0, fun _ => 5, fun _ => sampleLeafNode, none, some 1⟩) ∧
    (∃ ev, Tree.apply sampleTree (tree_update_to_update sampleFocusUpdateC)
        = .ok (⟨sampleTree.nodes, sampleTree.root,
            focusDecl (some sampleTree)
              (tree_update_to_update sampleFocusUpdateC),
            sampleTree.root_scroller⟩, ev) ∧
      ∀ e ∈ ev, ∃ o n2, e = ChangeEvent.focusChanged o n2) :=
  have h := C10_focus_only sampleFocusUpdateC sampleTree rfl rfl
    (by decide) (by decide) (by decide) (Or.inr ⟨1, rfl, by decide⟩)
  ⟨h.1 (fun _ => 5) (fun _ => sampleLeafNode), h.2⟩

end AccessKit
